import Mathlib

/-!
Verification of the wigma collaborative-editing relay server core.

This file gives a shallow embedding, in Lean 4, of the ws-server core of the
wigma repository: the binary wire codec (protocol/message_codec.cpp), the
room and room-registry data structures (rooms/room.cpp, rooms/room_manager.cpp),
the persistence controller over the backing-store contract
(persistence/yjs_persistence.cpp, persistence/supabase_client.cpp), the token
verifier's claim-decoding logic (auth/jwt_verifier.cpp), and the per-connection
state machine of the server (server/ws_server.cpp).

Conventions of the embedding:
- C++ machine bytes (uint8_t) are modelled as Fin 256; byte buffers as lists.
- The unordered_map containers are modelled as association lists whose key
  lists are kept duplicate-free by the same guarded-insertion discipline the
  C++ code uses; lookup finds the first matching key.
- WebSocket handles (void pointers in the C++ code) are opaque Nat values.
- Network and cryptographic primitives (libcurl requests, OpenSSL signature
  checks, JSON parsing) are external effects: they enter the model as oracle
  parameters carrying their results, exactly at the point where the C++ code
  consumes those results.
-/

namespace Wigma

/-- Machine byte, the uint8_t of the C++ sources. -/
abbrev Byte := Fin 256

/-- Byte buffer (std::string / std::vector of uint8_t contents). -/
abbrev Bytes := List Byte

/-- Opaque per-connection handle (the void pointer used as peer key). -/
abbrev Handle := Nat

/-! ### Association lists

Model of the std::unordered_map containers used by Room, RoomManager,
YjsPersistence and the per-socket data table. -/

section AList

variable {α : Type} {β : Type} [DecidableEq α]

/-- First-match lookup in an association list. -/
def lookupA (k : α) : List (α × β) → Option β
  | [] => none
  | p :: rest => if p.1 = k then some p.2 else lookupA k rest

/-- Key list of an association list. -/
def keysA (l : List (α × β)) : List α := l.map Prod.fst

/-- Replace the value stored at a key (no effect on absent keys). -/
def setA (k : α) (v : β) : List (α × β) → List (α × β)
  | [] => []
  | p :: rest => if p.1 = k then (k, v) :: setA k v rest else p :: setA k v rest

/-- Remove every entry stored at a key. -/
def eraseA (k : α) : List (α × β) → List (α × β)
  | [] => []
  | p :: rest => if p.1 = k then eraseA k rest else p :: eraseA k rest

/-- Insert-or-replace at a key. -/
def upsertA (k : α) (v : β) (l : List (α × β)) : List (α × β) :=
  if k ∈ keysA l then setA k v l else l ++ [(k, v)]

set_option linter.unusedSectionVars false

@[simp] theorem keysA_nil : keysA ([] : List (α × β)) = [] := rfl

@[simp] theorem keysA_cons (p : α × β) (l : List (α × β)) :
    keysA (p :: l) = p.1 :: keysA l := rfl

@[simp] theorem keysA_append (l1 l2 : List (α × β)) :
    keysA (l1 ++ l2) = keysA l1 ++ keysA l2 := List.map_append _ _ _

@[simp] theorem lookupA_nil (k : α) : lookupA k ([] : List (α × β)) = none := rfl

theorem lookupA_cons (k : α) (p : α × β) (l : List (α × β)) :
    lookupA k (p :: l) = if p.1 = k then some p.2 else lookupA k l := rfl

theorem lookupA_eq_none_iff (k : α) (l : List (α × β)) :
    lookupA k l = none ↔ k ∉ keysA l := by
  induction l with
  | nil => simp
  | cons p rest ih =>
    by_cases hp : p.1 = k
    · simp [lookupA_cons, hp]
    · simp [lookupA_cons, hp, ih, Ne.symm hp]

theorem mem_keysA_of_lookupA {k : α} {l : List (α × β)} {v : β}
    (h : lookupA k l = some v) : k ∈ keysA l := by
  by_contra hk
  rw [(lookupA_eq_none_iff k l).2 hk] at h
  exact Option.noConfusion h

theorem lookupA_isSome_of_mem {k : α} {l : List (α × β)} (h : k ∈ keysA l) :
    ∃ v, lookupA k l = some v := by
  cases hv : lookupA k l with
  | some v => exact ⟨v, rfl⟩
  | none => exact absurd h ((lookupA_eq_none_iff k l).1 hv)

theorem lookupA_append_left {k : α} {l1 : List (α × β)} {v : β}
    (l2 : List (α × β)) (h : lookupA k l1 = some v) :
    lookupA k (l1 ++ l2) = some v := by
  induction l1 with
  | nil => simp at h
  | cons p rest ih =>
    rw [List.cons_append, lookupA_cons]
    rw [lookupA_cons] at h
    by_cases hp : p.1 = k
    · rwa [if_pos hp] at h ⊢
    · rw [if_neg hp] at h ⊢
      exact ih h

theorem lookupA_append_right {k : α} {l1 : List (α × β)}
    (l2 : List (α × β)) (h : lookupA k l1 = none) :
    lookupA k (l1 ++ l2) = lookupA k l2 := by
  induction l1 with
  | nil => simp
  | cons p rest ih =>
    rw [lookupA_cons] at h
    rw [List.cons_append, lookupA_cons]
    by_cases hp : p.1 = k
    · rw [if_pos hp] at h
      exact Option.noConfusion h
    · rw [if_neg hp] at h
      rw [if_neg hp]
      exact ih h

theorem lookupA_setA_self (k : α) (v : β) (l : List (α × β)) :
    lookupA k (setA k v l) = (lookupA k l).map fun _ => v := by
  induction l with
  | nil => simp [setA]
  | cons p rest ih =>
    by_cases hp : p.1 = k
    · simp [setA, hp, lookupA_cons]
    · simp [setA, hp, lookupA_cons, ih]

theorem lookupA_setA_ne {k2 k : α} (v : β) (l : List (α × β)) (h : k2 ≠ k) :
    lookupA k2 (setA k v l) = lookupA k2 l := by
  induction l with
  | nil => simp [setA]
  | cons p rest ih =>
    by_cases hp : p.1 = k
    · simp [setA, hp, lookupA_cons, ih, Ne.symm h]
    · simp [setA, hp, lookupA_cons, ih]

@[simp] theorem keysA_setA (k : α) (v : β) (l : List (α × β)) :
    keysA (setA k v l) = keysA l := by
  induction l with
  | nil => rfl
  | cons p rest ih =>
    by_cases hp : p.1 = k
    · simp [setA, hp, ih]
    · simp [setA, hp, ih]

theorem lookupA_eraseA_self (k : α) (l : List (α × β)) :
    lookupA k (eraseA k l) = none := by
  induction l with
  | nil => simp [eraseA]
  | cons p rest ih =>
    by_cases hp : p.1 = k
    · simp [eraseA, hp, ih]
    · simp [eraseA, hp, lookupA_cons, ih]

theorem lookupA_eraseA_ne {k2 k : α} (l : List (α × β)) (h : k2 ≠ k) :
    lookupA k2 (eraseA k l) = lookupA k2 l := by
  induction l with
  | nil => simp [eraseA]
  | cons p rest ih =>
    by_cases hp : p.1 = k
    · simp [eraseA, hp, lookupA_cons, ih, Ne.symm h]
    · simp [eraseA, hp, lookupA_cons, ih]

theorem not_mem_keysA_eraseA (k : α) (l : List (α × β)) :
    k ∉ keysA (eraseA k l) := by
  intro hmem
  obtain ⟨v, hv⟩ := lookupA_isSome_of_mem hmem
  rw [lookupA_eraseA_self] at hv
  exact Option.noConfusion hv

theorem keysA_eraseA_sublist (k : α) (l : List (α × β)) :
    (keysA (eraseA k l)).Sublist (keysA l) := by
  induction l with
  | nil => simp [eraseA]
  | cons p rest ih =>
    by_cases hp : p.1 = k
    · rw [eraseA, if_pos hp]
      exact ih.trans (List.sublist_cons_self _ _)
    · rw [eraseA, if_neg hp, keysA_cons, keysA_cons]
      exact ih.cons₂ p.1

theorem nodup_keysA_eraseA {l : List (α × β)} (k : α) (h : (keysA l).Nodup) :
    (keysA (eraseA k l)).Nodup := h.sublist (keysA_eraseA_sublist k l)

theorem eraseA_eq_self_of_not_mem {k : α} {l : List (α × β)}
    (h : k ∉ keysA l) : eraseA k l = l := by
  induction l with
  | nil => rfl
  | cons p rest ih =>
    rw [keysA_cons, List.mem_cons] at h
    push_neg at h
    rw [eraseA, if_neg (fun hp => h.1 hp.symm), ih h.2]

theorem mem_keysA_eraseA {k k2 : α} {l : List (α × β)}
    (h : k2 ∈ keysA (eraseA k l)) : k2 ∈ keysA l ∧ k2 ≠ k := by
  have hne : k2 ≠ k := by
    rintro rfl
    exact not_mem_keysA_eraseA _ l h
  obtain ⟨v, hv⟩ := lookupA_isSome_of_mem h
  rw [lookupA_eraseA_ne l hne] at hv
  exact ⟨mem_keysA_of_lookupA hv, hne⟩

theorem lookupA_upsertA_self (k : α) (v : β) (l : List (α × β)) :
    lookupA k (upsertA k v l) = some v := by
  rw [upsertA]
  by_cases hmem : k ∈ keysA l
  · rw [if_pos hmem]
    obtain ⟨v0, hv0⟩ := lookupA_isSome_of_mem hmem
    rw [lookupA_setA_self, hv0]
    rfl
  · rw [if_neg hmem, lookupA_append_right _ ((lookupA_eq_none_iff k l).2 hmem)]
    simp [lookupA_cons]

theorem lookupA_upsertA_ne {k2 k : α} (v : β) (l : List (α × β)) (h : k2 ≠ k) :
    lookupA k2 (upsertA k v l) = lookupA k2 l := by
  rw [upsertA]
  by_cases hmem : k ∈ keysA l
  · rw [if_pos hmem]
    exact lookupA_setA_ne v l h
  · rw [if_neg hmem]
    cases hv : lookupA k2 l with
    | some v2 => exact lookupA_append_left _ hv
    | none =>
      rw [lookupA_append_right _ hv, lookupA_cons, if_neg (fun hk => h hk.symm)]
      rfl

end AList

/-! ### Wire codec (protocol/message_codec.h, protocol/message_codec.cpp)

The binary frame format: byte 0 is the message type tag, bytes 1..N the
opaque payload. -/

/-- Message type tags of the binary wire protocol (message_codec.h). -/
inductive MessageType where
  | YjsSync
  | YjsUpdate
  | Awareness
deriving DecidableEq

/-- Numeric tag value of each known message type (0x01, 0x02, 0x03). -/
def MessageType.toByte : MessageType → Byte
  | .YjsSync => 1
  | .YjsUpdate => 2
  | .Awareness => 3

/-- Discriminator of known tag bytes; none for any byte outside 1..3. -/
def MessageType.ofByte (b : Byte) : Option MessageType :=
  if b = 1 then some .YjsSync
  else if b = 2 then some .YjsUpdate
  else if b = 3 then some .Awareness
  else none

/-- Result of MessageCodec::decode_binary. The C++ struct stores the tag as a
MessageType enum with uint8_t underlying type, so an unknown incoming byte is
preserved unchanged in the tag field; the field is therefore modelled as the
raw byte. -/
structure DecodedBinary where
  type : Byte
  payload : Bytes
  valid : Bool
deriving DecidableEq

/-- MessageCodec::encode_binary: one tag byte followed by the payload bytes. -/
def encode_binary (t : MessageType) (payload : Bytes) : Bytes :=
  t.toByte :: payload

/-- MessageCodec::decode_binary. A frame shorter than one byte yields the
invalid fallback result (tag YjsSync, empty payload, valid = false); any other
frame yields its first byte as the tag, the rest as payload, valid = true. -/
def decode_binary : Bytes → DecodedBinary
  | [] => { type := MessageType.toByte .YjsSync, payload := [], valid := false }
  | b :: rest => { type := b, payload := rest, valid := true }

/-- C2: decoding a nonempty frame whose first byte is not a known tag (1, 2
or 3) yields a valid result that carries the unknown tag byte itself; the
carried tag differs from the tag of every known message type (so the frame is
never aliased to a known type, and the unknown-tag situation is
distinguishable by inspecting the tag), and the known-tag discriminator maps
it to none. -/
theorem C2_unknown_tag_preserved (b : Byte) (rest : Bytes)
    (h1 : b ≠ MessageType.toByte .YjsSync)
    (h2 : b ≠ MessageType.toByte .YjsUpdate)
    (h3 : b ≠ MessageType.toByte .Awareness) :
    (decode_binary (b :: rest)).valid = true ∧
    (decode_binary (b :: rest)).type = b ∧
    (∀ t : MessageType, (decode_binary (b :: rest)).type ≠ t.toByte) ∧
    MessageType.ofByte (decode_binary (b :: rest)).type = none := by
  refine ⟨rfl, rfl, fun t => ?_, ?_⟩
  · cases t with
    | YjsSync => exact h1
    | YjsUpdate => exact h2
    | Awareness => exact h3
  · have e1 : b ≠ 1 := h1
    have e2 : b ≠ 2 := h2
    have e3 : b ≠ 3 := h3
    simp [decode_binary, MessageType.ofByte, e1, e2, e3]

/-- Witness for C2 at the concrete frame 0x04 with empty payload. -/
theorem C2_unknown_tag_preserved_witness :
    (decode_binary [(4 : Byte)]).valid = true ∧
    (decode_binary [(4 : Byte)]).type = (4 : Byte) ∧
    (∀ t : MessageType, (decode_binary [(4 : Byte)]).type ≠ t.toByte) ∧
    MessageType.ofByte (decode_binary [(4 : Byte)]).type = none :=
  C2_unknown_tag_preserved 4 [] (by decide) (by decide) (by decide)

/-- C4: decode is a left inverse of encode for every known message type and
every payload, the empty payload included: the decoded result is valid, its
tag byte is the encoded type's tag (recovering exactly that type through the
tag discriminator), and its payload equals the encoded payload. -/
theorem C4_decode_encode_roundtrip (t : MessageType) (payload : Bytes) :
    decode_binary (encode_binary t payload) =
      { type := t.toByte, payload := payload, valid := true } ∧
    MessageType.ofByte (decode_binary (encode_binary t payload)).type = some t := by
  constructor
  · rfl
  · cases t <;> rfl

/-! ### Session (rooms/room.h, rooms/room.cpp)

The peer set of one project, an unordered_map from socket handle to user id.
The C++ map's iteration order is unspecified; the model fixes insertion order,
which is one admissible order (the spec promises no ordering guarantee). -/

/-- One collaboration room: project id and the handle-to-user peer map. -/
structure Room where
  project_id : String
  peers : List (Handle × String)
deriving DecidableEq

/-- Room::add_peer — emplace: inserts only when the handle is absent, and
reports whether insertion happened. -/
def Room.add_peer (r : Room) (ws : Handle) (uid : String) : Room × Bool :=
  if ws ∈ keysA r.peers then (r, false)
  else ({ r with peers := r.peers ++ [(ws, uid)] }, true)

/-- Room::remove_peer — erase the handle (no effect if absent), then report
whether the peer map is now empty. -/
def Room.remove_peer (r : Room) (ws : Handle) : Room × Bool :=
  let remaining := eraseA ws r.peers
  ({ r with peers := remaining }, remaining.isEmpty)

/-- Room::get_user_id — the user id stored for a handle, empty if absent. -/
def Room.get_user_id (r : Room) (ws : Handle) : String :=
  (lookupA ws r.peers).getD ""

/-- Room::get_peer_ids — the user ids of all current peers. -/
def Room.get_peer_ids (r : Room) : List String :=
  r.peers.map Prod.snd

/-- Room::peer_count. -/
def Room.peer_count (r : Room) : Nat := r.peers.length

/-- Room::broadcast / Room::broadcast_text — the handles the send callback is
invoked for, in iteration order: every peer whose handle differs from the
sender (none plays the role of the null sender and reaches every peer). -/
def Room.broadcast (r : Room) (sender : Option Handle) : List Handle :=
  (r.peers.filter fun p => decide (some p.1 ≠ sender)).map Prod.fst

/-! ### Session registry (rooms/room_manager.h, rooms/room_manager.cpp) -/

/-- The room registry: capacity bound and the project-to-room map. -/
structure RoomManager where
  max_rooms : Nat
  rooms : List (String × Room)
deriving DecidableEq

/-- Registry as built by the RoomManager constructor: no rooms. -/
def RoomManager.empty (max : Nat) : RoomManager :=
  { max_rooms := max, rooms := [] }

/-- RoomManager::get_or_create — return the existing room when present;
otherwise create one only while the current count is strictly below
max_rooms, and signal failure (the null pointer) at capacity. -/
def RoomManager.get_or_create (m : RoomManager) (pid : String) :
    RoomManager × Option Room :=
  match lookupA pid m.rooms with
  | some r => (m, some r)
  | none =>
    if m.max_rooms ≤ m.rooms.length then (m, none)
    else
      let r : Room := { project_id := pid, peers := [] }
      ({ m with rooms := m.rooms ++ [(pid, r)] }, some r)

/-- RoomManager::get — lookup without creation. -/
def RoomManager.get (m : RoomManager) (pid : String) : Option Room :=
  lookupA pid m.rooms

/-- RoomManager::remove_if_empty — erase the entry only when present and
empty. -/
def RoomManager.remove_if_empty (m : RoomManager) (pid : String) : RoomManager :=
  match lookupA pid m.rooms with
  | some r => if r.peers.isEmpty then { m with rooms := eraseA pid m.rooms } else m
  | none => m

/-- RoomManager::room_count. -/
def RoomManager.room_count (m : RoomManager) : Nat := m.rooms.length

/-- Iterated get_or_create, keeping only the registry (the call sequence of
claim C3). -/
def gocFold (m : RoomManager) (pids : List String) : RoomManager :=
  pids.foldl (fun acc pid => (acc.get_or_create pid).1) m

theorem get_or_create_found {m : RoomManager} {pid : String} {r : Room}
    (h : lookupA pid m.rooms = some r) :
    m.get_or_create pid = (m, some r) := by
  rw [RoomManager.get_or_create, h]

theorem get_or_create_capacity {m : RoomManager} {pid : String}
    (h : lookupA pid m.rooms = none) (hc : m.max_rooms ≤ m.rooms.length) :
    m.get_or_create pid = (m, none) := by
  rw [RoomManager.get_or_create, h]
  simp [hc]

theorem get_or_create_creates {m : RoomManager} {pid : String}
    (h : lookupA pid m.rooms = none) (hc : m.rooms.length < m.max_rooms) :
    m.get_or_create pid =
      ({ m with rooms :=
          m.rooms ++ [(pid, { project_id := pid, peers := [] })] },
       some { project_id := pid, peers := [] }) := by
  rw [RoomManager.get_or_create, h]
  simp [Nat.not_le_of_lt hc]

theorem get_or_create_max_eq (m : RoomManager) (pid : String) :
    (m.get_or_create pid).1.max_rooms = m.max_rooms := by
  rw [RoomManager.get_or_create]
  cases h : lookupA pid m.rooms with
  | some r => rfl
  | none =>
    by_cases hc : m.max_rooms ≤ m.rooms.length
    · simp [hc]
    · simp [hc]

theorem get_or_create_length_le {m : RoomManager} (pid : String)
    (h : m.rooms.length ≤ m.max_rooms) :
    (m.get_or_create pid).1.rooms.length ≤ m.max_rooms := by
  rw [RoomManager.get_or_create]
  cases hl : lookupA pid m.rooms with
  | some r => exact h
  | none =>
    by_cases hc : m.max_rooms ≤ m.rooms.length
    · simp [hc]
      exact h
    · simp [hc]
      omega

theorem gocFold_bounded (pids : List String) (m : RoomManager)
    (h : m.rooms.length ≤ m.max_rooms) :
    (gocFold m pids).rooms.length ≤ (gocFold m pids).max_rooms ∧
    (gocFold m pids).max_rooms = m.max_rooms := by
  induction pids generalizing m with
  | nil => exact ⟨h, rfl⟩
  | cons pid rest ih =>
    have hstep : ((m.get_or_create pid).1.rooms.length ≤
        (m.get_or_create pid).1.max_rooms) := by
      rw [get_or_create_max_eq]
      exact get_or_create_length_le pid h
    have := ih (m.get_or_create pid).1 hstep
    have hfold : gocFold m (pid :: rest) = gocFold (m.get_or_create pid).1 rest := rfl
    rw [hfold]
    refine ⟨this.1, ?_⟩
    rw [this.2, get_or_create_max_eq]

theorem gocFold_fresh_keys (pids : List String) (m : RoomManager)
    (hnd : pids.Nodup) (hfresh : ∀ p ∈ pids, p ∉ keysA m.rooms)
    (hcap : m.rooms.length + pids.length ≤ m.max_rooms) :
    keysA (gocFold m pids).rooms = keysA m.rooms ++ pids ∧
    (gocFold m pids).max_rooms = m.max_rooms := by
  induction pids generalizing m with
  | nil => simp [gocFold]
  | cons pid rest ih =>
    have hl : lookupA pid m.rooms = none :=
      (lookupA_eq_none_iff pid m.rooms).2 (hfresh pid (List.mem_cons_self pid rest))
    have hc : m.rooms.length < m.max_rooms := by
      have := hcap
      simp [List.length_cons] at this
      omega
    have hstep := get_or_create_creates hl hc
    have hkeys : keysA (m.get_or_create pid).1.rooms = keysA m.rooms ++ [pid] := by
      rw [hstep]
      simp
    have hmax := get_or_create_max_eq m pid
    have hlen : (m.get_or_create pid).1.rooms.length = m.rooms.length + 1 := by
      rw [hstep]
      simp
    have hnd2 : rest.Nodup := (List.nodup_cons.1 hnd).2
    have hpidrest : pid ∉ rest := (List.nodup_cons.1 hnd).1
    have hfresh2 : ∀ p ∈ rest, p ∉ keysA (m.get_or_create pid).1.rooms := by
      intro p hp
      rw [hkeys]
      intro hmem
      rcases List.mem_append.1 hmem with hml | hml
      · exact hfresh p (List.mem_cons_of_mem _ hp) hml
      · rcases List.mem_singleton.1 hml with rfl
        exact hpidrest hp
    have hcap2 : (m.get_or_create pid).1.rooms.length + rest.length ≤
        (m.get_or_create pid).1.max_rooms := by
      rw [hlen, hmax]
      simp [List.length_cons] at hcap
      omega
    have := ih (m.get_or_create pid).1 hnd2 hfresh2 hcap2
    constructor
    · rw [show gocFold m (pid :: rest) = gocFold (m.get_or_create pid).1 rest from rfl,
        this.1, hkeys, List.append_assoc]
      rfl
    · rw [show gocFold m (pid :: rest) = gocFold (m.get_or_create pid).1 rest from rfl,
        this.2, hmax]

/-- C3: the registry respects its capacity bound. get_or_create returns the
existing room unchanged when the project is present; creates (count grows by
one) only when the current count is strictly below max_rooms; at capacity it
signals failure leaving the registry untouched (no eviction). Consequently
any sequence of get_or_create calls starting from the empty registry keeps
the count at or below max_rooms, and max_rooms + 1 calls with pairwise
distinct project ids leave the count at exactly max_rooms with the final call
failing. -/
theorem C3_capacity_bound :
    (∀ (m : RoomManager) (pid : String) (r : Room),
      lookupA pid m.rooms = some r → m.get_or_create pid = (m, some r)) ∧
    (∀ (m : RoomManager) (pid : String),
      lookupA pid m.rooms = none → m.rooms.length < m.max_rooms →
      (m.get_or_create pid).1.rooms.length = m.rooms.length + 1 ∧
      ((m.get_or_create pid).2).isSome = true) ∧
    (∀ (m : RoomManager) (pid : String),
      lookupA pid m.rooms = none → m.max_rooms ≤ m.rooms.length →
      m.get_or_create pid = (m, none)) ∧
    (∀ (max : Nat) (pids : List String),
      (gocFold (RoomManager.empty max) pids).rooms.length ≤ max) ∧
    (∀ (max : Nat) (front : List String) (last : String),
      (front ++ [last]).Nodup → front.length = max →
      ((gocFold (RoomManager.empty max) front).get_or_create last).2 = none ∧
      (gocFold (RoomManager.empty max) front).rooms.length = max) := by
  refine ⟨?_, ?_, ?_, ?_, ?_⟩
  · intro m pid r h
    exact get_or_create_found h
  · intro m pid h hc
    rw [get_or_create_creates h hc]
    simp
  · intro m pid h hc
    exact get_or_create_capacity h hc
  · intro max pids
    have h := gocFold_bounded pids (RoomManager.empty max) (by simp [RoomManager.empty])
    rw [h.2] at h
    exact h.1
  · intro max front last hnd hlen
    have hndf : front.Nodup := (List.nodup_append.1 hnd).1
    have hlast : last ∉ front := by
      intro hmem
      have := (List.nodup_append.1 hnd).2.2
      exact this hmem (List.mem_singleton_self last)
    have hkeys := gocFold_fresh_keys front (RoomManager.empty max) hndf
      (by intro p hp; simp [RoomManager.empty]) (by simp [RoomManager.empty, hlen])
    have hkeyeq : keysA (gocFold (RoomManager.empty max) front).rooms = front := by
      rw [hkeys.1]
      simp [RoomManager.empty]
    have hlenf : (gocFold (RoomManager.empty max) front).rooms.length = max := by
      have : keysA (gocFold (RoomManager.empty max) front).rooms =
          (gocFold (RoomManager.empty max) front).rooms.map Prod.fst := rfl
      rw [this] at hkeyeq
      have := congrArg List.length hkeyeq
      rw [List.length_map] at this
      omega
    refine ⟨?_, hlenf⟩
    have hnone : lookupA last (gocFold (RoomManager.empty max) front).rooms = none := by
      rw [lookupA_eq_none_iff, hkeyeq]
      exact hlast
    have hcap : (gocFold (RoomManager.empty max) front).max_rooms ≤
        (gocFold (RoomManager.empty max) front).rooms.length := by
      rw [hkeys.2, hlenf]
      exact le_rfl
    rw [get_or_create_capacity hnone hcap]

/-- Witness for C3: capacity one, two distinct project ids; the second
get_or_create fails and the registry holds exactly one room. -/
theorem C3_capacity_bound_witness :
    ((gocFold (RoomManager.empty 1) ["a"]).get_or_create "b").2 = none ∧
    (gocFold (RoomManager.empty 1) ["a"]).rooms.length = 1 :=
  C3_capacity_bound.2.2.2.2 1 ["a"] "b" (by decide) rfl

/-- C10 counterexample: a one-peer room (handle 1), remove_peer with the
never-added handle 2 reports now-empty = false, not true as the claim
states. -/
theorem C10_counterexample :
    ¬ ((Room.remove_peer { project_id := "p", peers := [(1, "alice")] } 2).2 = true) := by
  decide

/-- C10 (amended): for every room and every handle not present in its peer
set, remove_peer leaves the room unchanged and returns whether the room is
empty; on an empty room this reports now-empty = true, while on a one-peer
room with a never-added handle it reports now-empty = false, in both cases
without removing anything. -/
theorem C10_remove_absent_peer (r : Room) (ws : Handle)
    (h : ws ∉ keysA r.peers) :
    (r.remove_peer ws).1 = r ∧
    (r.remove_peer ws).2 = r.peers.isEmpty ∧
    (r.peers = [] → (r.remove_peer ws).2 = true) ∧
    (∀ h0 uid, r.peers = [(h0, uid)] → (r.remove_peer ws).2 = false) := by
  have herase : eraseA ws r.peers = r.peers := eraseA_eq_self_of_not_mem h
  refine ⟨?_, ?_, ?_, ?_⟩
  · rw [Room.remove_peer]
    simp [herase]
  · rw [Room.remove_peer]
    simp [herase]
  · intro hempty
    rw [Room.remove_peer]
    simp [hempty, eraseA]
  · intro h0 uid hone
    have hws : ¬ (h0 = ws) := by
      rw [hone] at h
      simp [keysA] at h
      exact fun he => h he.symm
    rw [Room.remove_peer]
    simp [hone, eraseA, hws]

/-- Witness for C10's amended statement: an empty room reports now-empty =
true, a one-peer room with an absent handle reports now-empty = false. -/
theorem C10_remove_absent_peer_witness :
    (Room.remove_peer { project_id := "p", peers := [] } 1).2 = true ∧
    (Room.remove_peer { project_id := "q", peers := [(1, "u")] } 2).2 = false :=
  ⟨(C10_remove_absent_peer { project_id := "p", peers := [] } 1 (by decide)).2.2.1 rfl,
   (C10_remove_absent_peer { project_id := "q", peers := [(1, "u")] } 2
     (by decide)).2.2.2 1 "u" rfl⟩

/-! ### Backing store contract (persistence/supabase_client.h / .cpp)

The external persistence service as seen through SupabaseClient: a snapshot
row per project (upsert with merge-on-conflict) and an append-only update
table range-read in ascending insertion order. The HTTP transport is the
external collaborator; the model is the request/response contract the rest
of the server relies on.

Update rows carry auto-incrementing ids starting at 1, so a range read with
id greater than after_id returns the stored list with its first after_id
elements dropped, in insertion order. -/

/-- The observable state of the backing store. -/
structure Store where
  snapshots : List (String × Bytes)
  updates : List (String × List Bytes)
deriving DecidableEq

/-- SupabaseClient::get_snapshot. -/
def Store.get_snapshot (s : Store) (pid : String) : Option Bytes :=
  lookupA pid s.snapshots

/-- SupabaseClient::get_updates — rows with id greater than after_id,
ascending. -/
def Store.get_updates (s : Store) (pid : String) (after_id : Nat) : List Bytes :=
  ((lookupA pid s.updates).getD []).drop after_id

/-- Write requests SupabaseClient can issue, named after its methods. -/
inductive StoreOp where
  | upsertSnapshot (pid : String) (data : Bytes)
  | appendUpdate (pid : String) (data : Bytes)
  | clearUpdates (pid : String)
deriving DecidableEq

/-- Contract semantics of one write request. -/
def Store.apply (s : Store) : StoreOp → Store
  | .upsertSnapshot pid data => { s with snapshots := upsertA pid data s.snapshots }
  | .appendUpdate pid data =>
      { s with updates := upsertA pid ((lookupA pid s.updates).getD [] ++ [data]) s.updates }
  | .clearUpdates pid => { s with updates := upsertA pid [] s.updates }

/-! ### Persistence controller (persistence/yjs_persistence.h / .cpp) -/

/-- The per-project unconfirmed-update counters of YjsPersistence. -/
abbrev Counters := List (String × Nat)

/-- YjsPersistence::load_state, translated statement by statement: fetch the
snapshot, fetch all updates after id 0, return the empty vector when neither
exists; otherwise build the result by inserting the snapshot bytes when
present. The source sizes the update blobs into the reserve computation
(lines 29 to 33) but never copies their bytes into the result, so the
returned buffer holds the snapshot bytes only. -/
def load_state (store : Store) (pid : String) : Bytes :=
  let snapshot := store.get_snapshot pid
  let updates := store.get_updates pid 0
  if snapshot = none ∧ updates = [] then []
  else
    match snapshot with
    | some s => s
    | none => []

/-- The return value claim C1 and the spec sentence describe for loadState:
snapshot bytes followed by each stored update's bytes in ascending insertion
order. Stated from the spec's words, for comparison with load_state. -/
def load_state_claimed (store : Store) (pid : String) : Bytes :=
  (store.get_snapshot pid).getD [] ++ (store.get_updates pid 0).foldr (· ++ ·) []

/-- YjsPersistence::persist_update — append the update, then increment the
project's counter (operator[] default-constructs an absent counter at 0). -/
def persist_update (store : Store) (counters : Counters) (pid : String)
    (data : Bytes) : Store × Counters :=
  (store.apply (.appendUpdate pid data),
   upsertA pid ((lookupA pid counters).getD 0 + 1) counters)

/-- The store write requests YjsPersistence::compact issues, in program
order: first the snapshot upsert, then the update clear. -/
def compact_store_ops (pid : String) (merged : Bytes) : List StoreOp :=
  [.upsertSnapshot pid merged, .clearUpdates pid]

/-- YjsPersistence::compact — issue the two store writes in order, then reset
the project's counter to zero. -/
def compact (store : Store) (counters : Counters) (pid : String)
    (merged : Bytes) : Store × Counters :=
  ((compact_store_ops pid merged).foldl Store.apply store, upsertA pid 0 counters)

/-- C1 as the code behaves at the failing input: a project whose store holds
no snapshot and a single stored update 0xAA. load_state returns the empty
byte vector, while the claimed result (snapshot concatenated with the
updates in ascending order) is the single update byte 0xAA; the two
disagree. With a snapshot 0x01 present alongside the update, load_state
returns only the snapshot byte. The update bytes are fetched and counted but
never appended (yjs_persistence.cpp lines 23 to 43), contradicting the
function's own documentation. -/
theorem C1_load_state_drops_updates :
    load_state (Store.mk [] [("p", [[(170 : Byte)]])]) "p" = [] ∧
    load_state_claimed (Store.mk [] [("p", [[(170 : Byte)]])]) "p" = [(170 : Byte)] ∧
    load_state (Store.mk [("p", [(1 : Byte)])] [("p", [[(170 : Byte)]])]) "p"
      = [(1 : Byte)] ∧
    load_state_claimed (Store.mk [("p", [(1 : Byte)])] [("p", [[(170 : Byte)]])]) "p"
      = [(1 : Byte), (170 : Byte)] ∧
    load_state (Store.mk [] []) "p" = [] := by
  refine ⟨?_, ?_, ?_, ?_, ?_⟩ <;> rfl

/-- C6: compact issues exactly the snapshot upsert followed by the update
clear, in that order, and then resets the counter; under the store contract
the resulting state has the new snapshot, no stored updates, and a zero
counter for the project. -/
theorem C6_compact_order_and_post (store : Store) (counters : Counters)
    (pid : String) (merged : Bytes) :
    compact_store_ops pid merged =
      [StoreOp.upsertSnapshot pid merged, StoreOp.clearUpdates pid] ∧
    compact store counters pid merged =
      ((store.apply (.upsertSnapshot pid merged)).apply (.clearUpdates pid),
       upsertA pid 0 counters) ∧
    (compact store counters pid merged).1.get_snapshot pid = some merged ∧
    (compact store counters pid merged).1.get_updates pid 0 = [] ∧
    lookupA pid (compact store counters pid merged).2 = some 0 := by
  refine ⟨rfl, rfl, ?_, ?_, ?_⟩
  · show lookupA pid (upsertA pid merged store.snapshots) = some merged
    exact lookupA_upsertA_self pid merged store.snapshots
  · show (((lookupA pid (upsertA pid ([] : List Bytes) _)).getD []).drop 0) = []
    rw [lookupA_upsertA_self]
    rfl
  · exact lookupA_upsertA_self pid 0 counters

/-! ### Token verifier claim decoding (auth/jwt_verifier.cpp)

The signature checks (verify_es256, verify_hs256) call OpenSSL primitives on
remotely fetched key material; they enter the model as a boolean oracle
sig_valid, which is exactly how JwtVerifier::verify consumes them. The
payload enters as the record the JSON parse of the payload segment produces
(absent fields already defaulted, as j.value does). -/

/-- JwtVerifier::Claims. -/
structure Claims where
  sub : String
  role : String
  exp : Int
  iat : Int
deriving DecidableEq

/-- A parsed token payload: the fields decode_claims reads, with the
defaults j.value applies for absent fields already in place. -/
structure JwtPayload where
  sub : String
  role : String
  exp : Int
  iat : Int
deriving DecidableEq

/-- JwtVerifier::decode_claims — build the claims record, reject when the
token carries a positive expiry that the current time has passed, reject an
empty subject, otherwise accept. -/
def decode_claims (p : JwtPayload) (now : Int) : Option Claims :=
  let claims : Claims := { sub := p.sub, role := p.role, exp := p.exp, iat := p.iat }
  if claims.exp > 0 ∧ now > claims.exp then none
  else if claims.sub = "" then none
  else some claims

/-- JwtVerifier::verify after the signature branch: when no algorithm branch
accepted the signature return failure, otherwise decode the payload into
claims. -/
def verify (sig_valid : Bool) (p : JwtPayload) (now : Int) : Option Claims :=
  if sig_valid = false then none
  else decode_claims p now

/-- C5: verification fails for every token whose payload carries a positive
expiry strictly in the past, whatever the signature check returned, and
likewise fails whenever the payload's subject is empty. -/
theorem C5_expired_or_empty_subject_fails (sig_valid : Bool) (p : JwtPayload)
    (now : Int) :
    (p.exp > 0 → p.exp < now → verify sig_valid p now = none) ∧
    (p.sub = "" → verify sig_valid p now = none) := by
  constructor
  · intro hpos hpast
    rw [verify]
    cases sig_valid with
    | false => rfl
    | true =>
      simp only [Bool.true_eq_false, if_false]
      rw [decode_claims]
      simp [hpos, hpast]
  · intro hsub
    rw [verify]
    cases sig_valid with
    | false => rfl
    | true =>
      simp only [Bool.true_eq_false, if_false]
      rw [decode_claims]
      by_cases hexp : p.exp > 0 ∧ now > p.exp
      · simp [hexp]
      · simp [hexp, hsub]

/-- Witness for C5: an expired payload with a valid signature fails, and an
empty-subject payload with a valid signature fails. -/
theorem C5_expired_or_empty_subject_fails_witness :
    verify true { sub := "u", role := "r", exp := 1, iat := 0 } 5 = none ∧
    verify true { sub := "", role := "r", exp := 0, iat := 0 } 5 = none :=
  ⟨(C5_expired_or_empty_subject_fails true
      { sub := "u", role := "r", exp := 1, iat := 0 } 5).1 (by decide) (by decide),
   (C5_expired_or_empty_subject_fails true
      { sub := "", role := "r", exp := 0, iat := 0 } 5).2 rfl⟩

/-! ### Connection orchestrator (server/ws_server.h, server/ws_server.cpp)

The per-connection state machine. The uWebSockets runtime is the external
transport: it owns the sockets, delivers the open / message / close
callbacks, and guarantees that a handle is opened before it receives
traffic and is never reused while open. Outbound sends, socket closes and
persistence calls are recorded as an effect list in the order the code
performs them. The token verification result, the access-check result and
the loaded persisted state are oracles attached to the message event, since
they are produced by external collaborators (OpenSSL / the backing store). -/

/-- PerSocketData (server/ws_server.h). -/
structure PerSocketData where
  user_id : String
  project_id : String
  authenticated : Bool
deriving DecidableEq

/-- MessageCodec::ControlMessage — a decoded JSON control message. -/
structure CtrlMsg where
  type : String
  project_id : String
  token : String
  valid : Bool
deriving DecidableEq

/-- Outbound control messages (the encode_* constructors of the codec). -/
inductive CtrlOut where
  | pong
  | joined (user_id : String) (peers : List String)
  | peerJoined (user_id : String)
  | peerLeft (user_id : String)
  | errorMsg (code : String)
deriving DecidableEq

/-- Observable actions of the server, in program order. -/
inductive Effect where
  | sendText (ws : Handle) (msg : CtrlOut)
  | sendBinary (ws : Handle) (data : Bytes)
  | closeConn (ws : Handle)
  | persistUpd (pid : String) (data : Bytes)
deriving DecidableEq

/-- The state the orchestrator owns: the per-socket data table (kept by the
transport, one entry per open connection) and the room registry. -/
structure ServerState where
  conns : List (Handle × PerSocketData)
  mgr : RoomManager
deriving DecidableEq

/-- Steps 3 to 6 of the join branch of WsServer::on_text_message: room
acquisition with the ROOM_LIMIT failure path, peer registration, connection
state update, the joined reply, the peer-joined broadcast, and the initial
state delivery as a YjsSync binary frame when nonempty. -/
def do_join (st : ServerState) (ws : Handle) (pid : String) (sub : String)
    (loaded : Bytes) : ServerState × List Effect :=
  match st.mgr.get_or_create pid with
  | (_, none) =>
      (st, [.sendText ws (.errorMsg "ROOM_LIMIT"), .closeConn ws])
  | (m1, some r) =>
      ({ conns := setA ws { user_id := sub, project_id := pid, authenticated := true } st.conns,
         mgr := { m1 with rooms := setA pid (r.add_peer ws sub).1 m1.rooms } },
       [Effect.sendText ws (.joined sub (r.add_peer ws sub).1.get_peer_ids)]
         ++ ((r.add_peer ws sub).1.broadcast (some ws)).map
              (fun w => Effect.sendText w (.peerJoined sub))
         ++ (if loaded.isEmpty then [] else
              [Effect.sendBinary ws (encode_binary .YjsSync loaded)]))

/-- WsServer::on_text_message. Invalid JSON is dropped; ping is answered
from any state; join is processed only on an unauthenticated connection
(verification failure and access failure reply with an error and close);
every other control message falls through with no effect. -/
def on_text_message (st : ServerState) (ws : Handle) (d : PerSocketData)
    (msg : CtrlMsg) (auth : Option String) (access : Bool) (loaded : Bytes) :
    ServerState × List Effect :=
  if msg.valid = false then (st, [])
  else if msg.type = "ping" then (st, [.sendText ws .pong])
  else if msg.type = "join" ∧ d.authenticated = false then
    match auth with
    | none => (st, [.sendText ws (.errorMsg "AUTH_FAILED"), .closeConn ws])
    | some sub =>
        if access = false then
          (st, [.sendText ws (.errorMsg "ACCESS_DENIED"), .closeConn ws])
        else do_join st ws msg.project_id sub loaded
  else (st, [])

/-- WsServer::on_binary_message: unauthenticated traffic is ignored, an
invalid frame is ignored, a missing room is ignored; otherwise the frame is
relayed unchanged to every other peer and, exactly for YjsUpdate frames, the
payload is forwarded to persist_update. -/
def on_binary_message (st : ServerState) (ws : Handle) (d : PerSocketData)
    (frame : Bytes) : ServerState × List Effect :=
  if d.authenticated = false then (st, [])
  else if (decode_binary frame).valid = false then (st, [])
  else
    match st.mgr.get d.project_id with
    | none => (st, [])
    | some room =>
        (st, (room.broadcast (some ws)).map (fun w => Effect.sendBinary w frame)
          ++ (if (decode_binary frame).type = MessageType.toByte .YjsUpdate then
                [Effect.persistUpd d.project_id (decode_binary frame).payload]
              else []))

/-- WsServer::on_close: nothing for an unauthenticated connection; otherwise
remove the peer from its room, broadcast peer-left to the remaining peers
when the room stays nonempty, and remove the room from the registry when it
became empty. -/
def on_close (st : ServerState) (ws : Handle) (d : PerSocketData) :
    ServerState × List Effect :=
  if d.authenticated = false then (st, [])
  else
    match lookupA d.project_id st.mgr.rooms with
    | none => (st, [])
    | some room =>
        if (room.remove_peer ws).2 = false then
          ({ st with mgr := { st.mgr with rooms := setA d.project_id (room.remove_peer ws).1 st.mgr.rooms } },
           ((room.remove_peer ws).1.broadcast none).map
             (fun w => Effect.sendText w (.peerLeft d.user_id)))
        else
          ({ st with mgr := RoomManager.remove_if_empty { st.mgr with rooms := setA d.project_id (room.remove_peer ws).1 st.mgr.rooms } d.project_id }, [])

/-- Transport-level events delivered to the orchestrator, with the oracle
results the corresponding callback consumes. -/
inductive Event where
  | openC (ws : Handle)
  | textMsg (ws : Handle) (msg : CtrlMsg) (auth : Option String) (access : Bool)
      (loaded : Bytes)
  | binMsg (ws : Handle) (frame : Bytes)
  | closeC (ws : Handle)

/-- One transport callback: open installs a fresh unauthenticated socket
record; message callbacks dispatch to the handlers for open handles; close
runs the close handler and then discards the socket record (the transport
frees the per-socket data). Events for unknown handles do not occur in the
transport contract and leave the state unchanged. -/
def stepServer (st : ServerState) : Event → ServerState × List Effect
  | .openC ws =>
      match lookupA ws st.conns with
      | some _ => (st, [])
      | none =>
          ({ st with conns :=
              st.conns ++ [(ws, { user_id := "", project_id := "", authenticated := false })] },
           [])
  | .textMsg ws msg auth access loaded =>
      match lookupA ws st.conns with
      | none => (st, [])
      | some d => on_text_message st ws d msg auth access loaded
  | .binMsg ws frame =>
      match lookupA ws st.conns with
      | none => (st, [])
      | some d => on_binary_message st ws d frame
  | .closeC ws =>
      match lookupA ws st.conns with
      | none => (st, [])
      | some d =>
          ({ (on_close st ws d).1 with conns := eraseA ws (on_close st ws d).1.conns },
           (on_close st ws d).2)

/-- Server states reachable from a fresh server (no connections, empty
registry with the configured capacity) under any event sequence. -/
inductive Reachable (max : Nat) : ServerState → Prop where
  | init : Reachable max { conns := [], mgr := RoomManager.empty max }
  | step {s : ServerState} (e : Event) :
      Reachable max s → Reachable max (stepServer s e).1

/-- C7: on an authenticated connection whose session exists, a binary frame
that decodes as valid leaves the server state unchanged and produces exactly
the relay of the unmodified frame to the broadcast targets followed by a
persist_update call if and only if the decoded type is YjsUpdate (carrying
the frame's payload); the broadcast targets are precisely the peers of the
session other than the sender; an invalid frame produces no effect at all. -/
theorem C7_relay_and_persist (st : ServerState) (ws : Handle)
    (d : PerSocketData) (frame : Bytes) (room : Room)
    (hconn : lookupA ws st.conns = some d)
    (hauth : d.authenticated = true)
    (hroom : lookupA d.project_id st.mgr.rooms = some room) :
    (stepServer st (.binMsg ws frame)).1 = st ∧
    ((decode_binary frame).valid = true →
      (stepServer st (.binMsg ws frame)).2 =
        (room.broadcast (some ws)).map (fun w => Effect.sendBinary w frame)
          ++ (if (decode_binary frame).type = MessageType.toByte .YjsUpdate then
                [Effect.persistUpd d.project_id (decode_binary frame).payload]
              else [])) ∧
    ((decode_binary frame).valid = false → (stepServer st (.binMsg ws frame)).2 = []) ∧
    (∀ w, w ∈ room.broadcast (some ws) ↔ (w ∈ keysA room.peers ∧ w ≠ ws)) ∧
    (∀ pid data, Effect.persistUpd pid data ∈ (stepServer st (.binMsg ws frame)).2 ↔
      ((decode_binary frame).valid = true ∧
       (decode_binary frame).type = MessageType.toByte .YjsUpdate ∧
       pid = d.project_id ∧ data = (decode_binary frame).payload)) := by
  have hstep : stepServer st (.binMsg ws frame) = on_binary_message st ws d frame := by
    rw [stepServer, hconn]
  have hbroadcast : ∀ w, w ∈ room.broadcast (some ws) ↔ (w ∈ keysA room.peers ∧ w ≠ ws) := by
    intro w
    rw [Room.broadcast]
    constructor
    · intro hmem
      obtain ⟨p, hp, hpw⟩ := List.mem_map.1 hmem
      have hpmem := List.mem_filter.1 hp
      refine ⟨?_, ?_⟩
      · rw [← hpw]
        exact List.mem_map.2 ⟨p, hpmem.1, rfl⟩
      · have := of_decide_eq_true hpmem.2
        intro hwws
        apply this
        rw [hpw, hwws]
    · rintro ⟨hmem, hne⟩
      obtain ⟨p, hp, hpw⟩ := List.mem_map.1 hmem
      refine List.mem_map.2 ⟨p, List.mem_filter.2 ⟨hp, ?_⟩, hpw⟩
      apply decide_eq_true
      rw [hpw]
      simp [hne]
  cases hval : (decode_binary frame).valid with
  | false =>
    have hres : on_binary_message st ws d frame = (st, []) := by
      rw [on_binary_message, hauth]
      simp [hval]
    refine ⟨?_, ?_, ?_, hbroadcast, ?_⟩
    · rw [hstep, hres]
    · intro hcontra
      exact absurd hcontra (by simp)
    · intro _
      rw [hstep, hres]
    · intro pid data
      rw [hstep, hres]
      simp
  | true =>
    have hres : on_binary_message st ws d frame =
        (st, (room.broadcast (some ws)).map (fun w => Effect.sendBinary w frame)
          ++ (if (decode_binary frame).type = MessageType.toByte .YjsUpdate then
                [Effect.persistUpd d.project_id (decode_binary frame).payload]
              else [])) := by
      rw [on_binary_message, hauth]
      simp only [hval, Bool.true_eq_false, if_false, if_neg]
      rw [RoomManager.get, hroom]
    refine ⟨?_, ?_, ?_, hbroadcast, ?_⟩
    · rw [hstep, hres]
    · intro _
      rw [hstep, hres]
    · intro hcontra
      exact absurd hcontra (by simp)
    · intro pid data
      rw [hstep, hres]
      constructor
      · intro hmem
        rcases List.mem_append.1 hmem with hml | hml
        · obtain ⟨w, _, hw⟩ := List.mem_map.1 hml
          exact absurd hw (by simp)
        · by_cases htag : (decode_binary frame).type = MessageType.toByte .YjsUpdate
          · rw [if_pos htag] at hml
            have hinj := Effect.persistUpd.inj (List.mem_singleton.1 hml)
            exact ⟨rfl, htag, hinj.1, hinj.2⟩
          · rw [if_neg htag] at hml
            exact absurd hml (List.not_mem_nil _)
      · rintro ⟨_, htag, rfl, rfl⟩
        exact List.mem_append.2 (Or.inr (by rw [if_pos htag]; exact List.mem_singleton_self _))

/-- Witness for C7: a two-peer room, peer 1 sends a YjsUpdate frame with
payload 0xAA: the effect list is exactly the relay to peer 2 followed by the
persistence call; a structurally identical Awareness frame is relayed but
produces no persistence call. -/
theorem C7_relay_and_persist_witness :
    (stepServer
      { conns := [(1, { user_id := "u1", project_id := "p", authenticated := true }),
                  (2, { user_id := "u2", project_id := "p", authenticated := true })],
        mgr := { max_rooms := 4,
                 rooms := [("p", { project_id := "p", peers := [(1, "u1"), (2, "u2")] })] } }
      (.binMsg 1 [(2 : Byte), (170 : Byte)])).2 =
      [Effect.sendBinary 2 [(2 : Byte), (170 : Byte)],
       Effect.persistUpd "p" [(170 : Byte)]] ∧
    ¬ (Effect.persistUpd "p" [(170 : Byte)] ∈
        (stepServer
          { conns := [(1, { user_id := "u1", project_id := "p", authenticated := true }),
                      (2, { user_id := "u2", project_id := "p", authenticated := true })],
            mgr := { max_rooms := 4,
                     rooms := [("p", { project_id := "p", peers := [(1, "u1"), (2, "u2")] })] } }
          (.binMsg 1 [(3 : Byte), (170 : Byte)])).2) := by
  constructor
  · have h := (C7_relay_and_persist
      { conns := [(1, { user_id := "u1", project_id := "p", authenticated := true }),
                  (2, { user_id := "u2", project_id := "p", authenticated := true })],
        mgr := { max_rooms := 4,
                 rooms := [("p", { project_id := "p", peers := [(1, "u1"), (2, "u2")] })] } }
      1 { user_id := "u1", project_id := "p", authenticated := true }
      [(2 : Byte), (170 : Byte)]
      { project_id := "p", peers := [(1, "u1"), (2, "u2")] }
      (by decide) rfl (by decide)).2.1 rfl
    rw [h]
    decide
  · intro hmem
    have h := ((C7_relay_and_persist
      { conns := [(1, { user_id := "u1", project_id := "p", authenticated := true }),
                  (2, { user_id := "u2", project_id := "p", authenticated := true })],
        mgr := { max_rooms := 4,
                 rooms := [("p", { project_id := "p", peers := [(1, "u1"), (2, "u2")] })] } }
      1 { user_id := "u1", project_id := "p", authenticated := true }
      [(3 : Byte), (170 : Byte)]
      { project_id := "p", peers := [(1, "u1"), (2, "u2")] }
      (by decide) rfl (by decide)).2.2.2.2 "p" [(170 : Byte)]).1 hmem
    exact absurd h.2.1 (by decide)

/-- C8: on an unauthenticated connection, a binary frame, and every control
message other than ping and join, produce no effect whatsoever: the server
state (connection table and registry) is unchanged, and the empty effect
list means no relay, no persistence call, no reply, and no socket close. -/
theorem C8_unauthenticated_ignored (st : ServerState) (ws : Handle)
    (d : PerSocketData)
    (hconn : lookupA ws st.conns = some d)
    (hauth : d.authenticated = false) :
    (∀ frame : Bytes, stepServer st (.binMsg ws frame) = (st, [])) ∧
    (∀ (msg : CtrlMsg) (auth : Option String) (access : Bool) (loaded : Bytes),
      msg.type ≠ "ping" → msg.type ≠ "join" →
      stepServer st (.textMsg ws msg auth access loaded) = (st, [])) := by
  constructor
  · intro frame
    have hstep : stepServer st (.binMsg ws frame) = on_binary_message st ws d frame := by
      rw [stepServer, hconn]
    rw [hstep, on_binary_message]
    simp [hauth]
  · intro msg auth access loaded hping hjoin
    have hstep : stepServer st (.textMsg ws msg auth access loaded) =
        on_text_message st ws d msg auth access loaded := by
      rw [stepServer, hconn]
    have hnj : ¬ (msg.type = "join" ∧ d.authenticated = false) := fun hc => hjoin hc.1
    rw [hstep, on_text_message.eq_def]
    by_cases hv : msg.valid = false
    · rw [if_pos hv]
    · rw [if_neg hv, if_neg hping, if_neg hnj]

/-- Witness for C8: a freshly opened, never-joined connection; a YjsUpdate
binary frame and a stray control message are both ignored outright. -/
theorem C8_unauthenticated_ignored_witness :
    stepServer
      { conns := [(7, { user_id := "", project_id := "", authenticated := false })],
        mgr := RoomManager.empty 4 }
      (.binMsg 7 [(2 : Byte), (170 : Byte)]) =
      ({ conns := [(7, { user_id := "", project_id := "", authenticated := false })],
         mgr := RoomManager.empty 4 }, []) ∧
    stepServer
      { conns := [(7, { user_id := "", project_id := "", authenticated := false })],
        mgr := RoomManager.empty 4 }
      (.textMsg 7 { type := "hello", project_id := "", token := "", valid := true }
        none false []) =
      ({ conns := [(7, { user_id := "", project_id := "", authenticated := false })],
         mgr := RoomManager.empty 4 }, []) :=
  ⟨(C8_unauthenticated_ignored
      { conns := [(7, { user_id := "", project_id := "", authenticated := false })],
        mgr := RoomManager.empty 4 }
      7 { user_id := "", project_id := "", authenticated := false }
      (by decide) rfl).1 [(2 : Byte), (170 : Byte)],
   (C8_unauthenticated_ignored
      { conns := [(7, { user_id := "", project_id := "", authenticated := false })],
        mgr := RoomManager.empty 4 }
      7 { user_id := "", project_id := "", authenticated := false }
      (by decide) rfl).2
      { type := "hello", project_id := "", token := "", valid := true }
      none false [] (by decide) (by decide)⟩

/-! ### The single-session invariant (claim C9) -/

/-- Every peer handle of a room is backed by an open connection that is
authenticated into exactly that room's project. -/
@[reducible] def peersOk (conns : List (Handle × PerSocketData)) (pid : String)
    (r : Room) : Prop :=
  ∀ w, w ∈ keysA r.peers →
    ∃ d, lookupA w conns = some d ∧ d.authenticated = true ∧ d.project_id = pid

/-- The orchestrator's structural invariant: duplicate-free connection and
registry keys, and every room has a duplicate-free peer set whose handles
are connections authenticated into that room's project. -/
@[reducible] def Inv (st : ServerState) : Prop :=
  (keysA st.conns).Nodup ∧
  (keysA st.mgr.rooms).Nodup ∧
  ∀ pid r, lookupA pid st.mgr.rooms = some r →
    (keysA r.peers).Nodup ∧ peersOk st.conns pid r

theorem remove_peer_peers (r : Room) (ws : Handle) :
    (r.remove_peer ws).1.peers = eraseA ws r.peers := rfl

theorem remove_peer_snd (r : Room) (ws : Handle) :
    (r.remove_peer ws).2 = (eraseA ws r.peers).isEmpty := rfl

theorem get_or_create_some_props {m m1 : RoomManager} {pid : String} {r : Room}
    (hnd : (keysA m.rooms).Nodup)
    (h : m.get_or_create pid = (m1, some r)) :
    lookupA pid m1.rooms = some r ∧
    (∀ pid2, pid2 ≠ pid → lookupA pid2 m1.rooms = lookupA pid2 m.rooms) ∧
    (keysA m1.rooms).Nodup ∧
    (lookupA pid m.rooms = some r ∨
      (lookupA pid m.rooms = none ∧ r = { project_id := pid, peers := [] })) := by
  cases hl : lookupA pid m.rooms with
  | some r0 =>
    rw [get_or_create_found hl] at h
    have h1 : m = m1 := congrArg Prod.fst h
    have h2 : r0 = r := Option.some.inj (congrArg Prod.snd h)
    subst h1
    subst h2
    exact ⟨hl, fun pid2 _ => rfl, hnd, Or.inl rfl⟩
  | none =>
    by_cases hc : m.max_rooms ≤ m.rooms.length
    · rw [get_or_create_capacity hl hc] at h
      exact absurd (congrArg Prod.snd h) (by simp)
    · rw [get_or_create_creates hl (Nat.lt_of_not_le hc)] at h
      have h1 : ({ m with rooms := m.rooms ++ [(pid, { project_id := pid, peers := [] })] } : RoomManager) = m1 :=
        congrArg Prod.fst h
      have h2 : ({ project_id := pid, peers := [] } : Room) = r :=
        Option.some.inj (congrArg Prod.snd h)
      subst h1
      subst h2
      have hfresh : pid ∉ keysA m.rooms := (lookupA_eq_none_iff pid m.rooms).1 hl
      refine ⟨?_, ?_, ?_, Or.inr ⟨rfl, rfl⟩⟩
      · rw [lookupA_append_right _ hl, lookupA_cons]
        simp
      · intro pid2 hne
        cases hlp : lookupA pid2 m.rooms with
        | some v => exact lookupA_append_left _ hlp
        | none =>
          rw [lookupA_append_right _ hlp, lookupA_cons,
            if_neg (fun hh => hne hh.symm), lookupA_nil]
      · rw [keysA_append, List.nodup_append]
        refine ⟨hnd, by simp [keysA], ?_⟩
        intro a ha hmem
        simp [keysA] at hmem
        subst hmem
        exact hfresh ha

theorem inv_do_join {st : ServerState} {ws : Handle} {d : PerSocketData}
    (pid sub : String) (loaded : Bytes) (hInv : Inv st)
    (hconn : lookupA ws st.conns = some d)
    (hdauth : d.authenticated = false) :
    Inv (do_join st ws pid sub loaded).1 := by
  obtain ⟨hc, hr, hrooms⟩ := hInv
  rw [do_join.eq_def]
  cases hg : st.mgr.get_or_create pid with
  | mk m1 ro =>
    cases ro with
    | none => exact ⟨hc, hr, hrooms⟩
    | some r =>
      obtain ⟨hA, hB, hC, hD⟩ := get_or_create_some_props hr hg
      have hwsnot : ws ∉ keysA r.peers := by
        intro hmem
        rcases hD with hD | hD
        · obtain ⟨_, hpo⟩ := hrooms pid r hD
          obtain ⟨d2, hd2, hd2a, _⟩ := hpo ws hmem
          rw [hconn] at hd2
          rw [← Option.some.inj hd2] at hd2a
          rw [hdauth] at hd2a
          exact Bool.noConfusion hd2a
        · rw [hD.2] at hmem
          simp [keysA] at hmem
      have hpeers : (r.add_peer ws sub).1.peers = r.peers ++ [(ws, sub)] := by
        rw [Room.add_peer, if_neg hwsnot]
      have hndr : (keysA r.peers).Nodup := by
        rcases hD with hD | hD
        · exact (hrooms pid r hD).1
        · rw [hD.2]
          simp [keysA]
      refine ⟨?_, ?_, ?_⟩
      · rw [keysA_setA]
        exact hc
      · rw [keysA_setA]
        exact hC
      · intro pid0 r0 hp0
        by_cases hpp : pid0 = pid
        · subst hpp
          rw [lookupA_setA_self, hA] at hp0
          have hp0' : some ((r.add_peer ws sub).1) = some r0 := hp0
          have hr0 := Option.some.inj hp0'
          subst hr0
          refine ⟨?_, ?_⟩
          · rw [hpeers, keysA_append, List.nodup_append]
            refine ⟨hndr, by simp [keysA], ?_⟩
            intro a ha hmem
            simp [keysA] at hmem
            subst hmem
            exact hwsnot ha
          · intro w hw
            rw [hpeers, keysA_append] at hw
            rcases List.mem_append.1 hw with hwl | hwr
            · have hwne : w ≠ ws := fun he => hwsnot (he ▸ hwl)
              rcases hD with hD | hD
              · obtain ⟨_, hpo⟩ := hrooms pid0 r hD
                obtain ⟨d2, hd2, hd2a, hd2p⟩ := hpo w hwl
                exact ⟨d2, by rw [lookupA_setA_ne _ _ hwne]; exact hd2, hd2a, hd2p⟩
              · rw [hD.2] at hwl
                simp [keysA] at hwl
            · simp [keysA] at hwr
              subst hwr
              refine ⟨{ user_id := sub, project_id := pid0, authenticated := true }, ?_, rfl, rfl⟩
              rw [lookupA_setA_self, hconn]
              rfl
        · rw [lookupA_setA_ne _ _ hpp, hB pid0 hpp] at hp0
          obtain ⟨hnd0, hpo0⟩ := hrooms pid0 r0 hp0
          refine ⟨hnd0, ?_⟩
          intro w hw
          obtain ⟨d2, hd2, hd2a, hd2p⟩ := hpo0 w hw
          have hwne : w ≠ ws := by
            rintro rfl
            rw [hconn] at hd2
            rw [← Option.some.inj hd2] at hd2a
            rw [hdauth] at hd2a
            exact Bool.noConfusion hd2a
          exact ⟨d2, by rw [lookupA_setA_ne _ _ hwne]; exact hd2, hd2a, hd2p⟩

theorem inv_preserved_open {st : ServerState} (ws : Handle) (hInv : Inv st) :
    Inv (stepServer st (.openC ws)).1 := by
  obtain ⟨hc, hr, hrooms⟩ := hInv
  cases hl : lookupA ws st.conns with
  | some d =>
    have hstep : (stepServer st (.openC ws)).1 = st := by rw [stepServer, hl]
    rw [hstep]
    exact ⟨hc, hr, hrooms⟩
  | none =>
    have hfresh : ws ∉ keysA st.conns := (lookupA_eq_none_iff ws st.conns).1 hl
    have hstep : (stepServer st (.openC ws)).1 =
        { st with conns := st.conns ++ [(ws, { user_id := "", project_id := "", authenticated := false })] } := by
      rw [stepServer, hl]
    rw [hstep]
    refine ⟨?_, hr, ?_⟩
    · rw [keysA_append, List.nodup_append]
      refine ⟨hc, by simp [keysA], ?_⟩
      intro a ha hmem
      simp [keysA] at hmem
      subst hmem
      exact hfresh ha
    · intro pid0 r0 hp0
      obtain ⟨hnd0, hpo0⟩ := hrooms pid0 r0 hp0
      refine ⟨hnd0, ?_⟩
      intro w hw
      obtain ⟨d2, hd2, hd2a, hd2p⟩ := hpo0 w hw
      exact ⟨d2, lookupA_append_left _ hd2, hd2a, hd2p⟩

theorem inv_preserved_text {st : ServerState} (ws : Handle) (msg : CtrlMsg)
    (auth : Option String) (access : Bool) (loaded : Bytes) (hInv : Inv st) :
    Inv (stepServer st (.textMsg ws msg auth access loaded)).1 := by
  cases hl : lookupA ws st.conns with
  | none =>
    have hstep : (stepServer st (.textMsg ws msg auth access loaded)).1 = st := by
      rw [stepServer, hl]
    rw [hstep]
    exact hInv
  | some d =>
    have hstep : stepServer st (.textMsg ws msg auth access loaded) =
        on_text_message st ws d msg auth access loaded := by
      rw [stepServer, hl]
    rw [hstep, on_text_message.eq_def]
    by_cases hv : msg.valid = false
    · rw [if_pos hv]
      exact hInv
    · rw [if_neg hv]
      by_cases hping : msg.type = "ping"
      · rw [if_pos hping]
        exact hInv
      · rw [if_neg hping]
        by_cases hjoin : msg.type = "join" ∧ d.authenticated = false
        · rw [if_pos hjoin]
          cases auth with
          | none => exact hInv
          | some sub =>
            by_cases hacc : access = false
            · show Inv (if access = false then (_ : ServerState × List Effect) else _).1
              rw [if_pos hacc]
              exact hInv
            · show Inv (if access = false then (_ : ServerState × List Effect) else _).1
              rw [if_neg hacc]
              exact inv_do_join msg.project_id sub loaded hInv hl hjoin.2
        · rw [if_neg hjoin]
          exact hInv

theorem on_binary_message_fst (st : ServerState) (ws : Handle)
    (d : PerSocketData) (frame : Bytes) :
    (on_binary_message st ws d frame).1 = st := by
  rw [on_binary_message.eq_def]
  by_cases ha : d.authenticated = false
  · rw [if_pos ha]
  · rw [if_neg ha]
    by_cases hv : (decode_binary frame).valid = false
    · rw [if_pos hv]
    · rw [if_neg hv]
      cases hg : st.mgr.get d.project_id with
      | none => rfl
      | some room => rfl

theorem inv_preserved_bin {st : ServerState} (ws : Handle) (frame : Bytes)
    (hInv : Inv st) : Inv (stepServer st (.binMsg ws frame)).1 := by
  cases hl : lookupA ws st.conns with
  | none =>
    have hstep : (stepServer st (.binMsg ws frame)).1 = st := by rw [stepServer, hl]
    rw [hstep]
    exact hInv
  | some d =>
    have hstep : stepServer st (.binMsg ws frame) = on_binary_message st ws d frame := by
      rw [stepServer, hl]
    rw [hstep, on_binary_message_fst]
    exact hInv

theorem on_close_unauth {st : ServerState} {ws : Handle} {d : PerSocketData}
    (ha : d.authenticated = false) : on_close st ws d = (st, []) := by
  rw [on_close.eq_def, if_pos ha]

theorem on_close_noroom {st : ServerState} {ws : Handle} {d : PerSocketData}
    (ha : d.authenticated = true)
    (h : lookupA d.project_id st.mgr.rooms = none) : on_close st ws d = (st, []) := by
  rw [on_close.eq_def, if_neg (by simp [ha]), h]

theorem on_close_room_nonempty {st : ServerState} {ws : Handle}
    {d : PerSocketData} {room : Room} (ha : d.authenticated = true)
    (h : lookupA d.project_id st.mgr.rooms = some room)
    (he : (room.remove_peer ws).2 = false) :
    on_close st ws d =
      ({ st with mgr := { st.mgr with rooms := setA d.project_id (room.remove_peer ws).1 st.mgr.rooms } },
       ((room.remove_peer ws).1.broadcast none).map
         (fun w => Effect.sendText w (.peerLeft d.user_id))) := by
  rw [on_close.eq_def, if_neg (by simp [ha])]
  simp only [h]
  rw [if_pos he]

theorem on_close_room_empty {st : ServerState} {ws : Handle}
    {d : PerSocketData} {room : Room} (ha : d.authenticated = true)
    (h : lookupA d.project_id st.mgr.rooms = some room)
    (he : (room.remove_peer ws).2 = true) :
    on_close st ws d =
      ({ st with mgr := RoomManager.remove_if_empty { st.mgr with rooms := setA d.project_id (room.remove_peer ws).1 st.mgr.rooms } d.project_id }, []) := by
  rw [on_close.eq_def, if_neg (by simp [ha])]
  simp only [h]
  rw [if_neg (by simp [he])]

theorem remove_if_empty_erase {m : RoomManager} {pid : String} {r : Room}
    (h : lookupA pid m.rooms = some r) (he : r.peers.isEmpty = true) :
    m.remove_if_empty pid = { m with rooms := eraseA pid m.rooms } := by
  rw [RoomManager.remove_if_empty.eq_def]
  simp only [h]
  rw [if_pos he]

theorem inv_preserved_close {st : ServerState} (ws : Handle) (hInv : Inv st) :
    Inv (stepServer st (.closeC ws)).1 := by
  obtain ⟨hc, hr, hrooms⟩ := hInv
  cases hl : lookupA ws st.conns with
  | none =>
    have hstep : (stepServer st (.closeC ws)).1 = st := by rw [stepServer, hl]
    rw [hstep]
    exact ⟨hc, hr, hrooms⟩
  | some d =>
    have hstep : (stepServer st (.closeC ws)).1 =
        { (on_close st ws d).1 with conns := eraseA ws (on_close st ws d).1.conns } := by
      rw [stepServer, hl]
    rw [hstep]
    cases hat : d.authenticated with
    | false =>
      rw [on_close_unauth hat]
      refine ⟨nodup_keysA_eraseA ws hc, hr, ?_⟩
      intro pid0 r0 hp0
      obtain ⟨hnd0, hpo0⟩ := hrooms pid0 r0 hp0
      refine ⟨hnd0, ?_⟩
      intro w hw
      obtain ⟨d2, hd2, hd2a, hd2p⟩ := hpo0 w hw
      have hwne : w ≠ ws := by
        rintro rfl
        rw [hl] at hd2
        rw [← Option.some.inj hd2] at hd2a
        rw [hat] at hd2a
        exact Bool.noConfusion hd2a
      exact ⟨d2, by rw [lookupA_eraseA_ne _ hwne]; exact hd2, hd2a, hd2p⟩
    | true =>
      cases hroom : lookupA d.project_id st.mgr.rooms with
      | none =>
        rw [on_close_noroom hat hroom]
        refine ⟨nodup_keysA_eraseA ws hc, hr, ?_⟩
        intro pid0 r0 hp0
        obtain ⟨hnd0, hpo0⟩ := hrooms pid0 r0 hp0
        refine ⟨hnd0, ?_⟩
        intro w hw
        obtain ⟨d2, hd2, hd2a, hd2p⟩ := hpo0 w hw
        have hwne : w ≠ ws := by
          rintro rfl
          rw [hl] at hd2
          rw [← Option.some.inj hd2] at hd2p
          rw [hd2p] at hroom
          rw [hroom] at hp0
          exact Option.noConfusion hp0
        exact ⟨d2, by rw [lookupA_eraseA_ne _ hwne]; exact hd2, hd2a, hd2p⟩
      | some room =>
        cases hemp : (room.remove_peer ws).2 with
        | false =>
          rw [on_close_room_nonempty hat hroom hemp]
          refine ⟨nodup_keysA_eraseA ws hc, ?_, ?_⟩
          · rw [keysA_setA]
            exact hr
          · intro pid0 r0 hp0
            by_cases hpp : pid0 = d.project_id
            · subst hpp
              rw [lookupA_setA_self, hroom] at hp0
              have hp0' : some ((room.remove_peer ws).1) = some r0 := hp0
              have hr0 := Option.some.inj hp0'
              subst hr0
              obtain ⟨hndr, hpor⟩ := hrooms d.project_id room hroom
              refine ⟨?_, ?_⟩
              · rw [remove_peer_peers]
                exact nodup_keysA_eraseA ws hndr
              · intro w hw
                rw [remove_peer_peers] at hw
                obtain ⟨hwmem, hwne⟩ := mem_keysA_eraseA hw
                obtain ⟨d2, hd2, hd2a, hd2p⟩ := hpor w hwmem
                exact ⟨d2, by rw [lookupA_eraseA_ne _ hwne]; exact hd2, hd2a, hd2p⟩
            · rw [lookupA_setA_ne _ _ hpp] at hp0
              obtain ⟨hnd0, hpo0⟩ := hrooms pid0 r0 hp0
              refine ⟨hnd0, ?_⟩
              intro w hw
              obtain ⟨d2, hd2, hd2a, hd2p⟩ := hpo0 w hw
              have hwne : w ≠ ws := by
                rintro rfl
                rw [hl] at hd2
                rw [← Option.some.inj hd2] at hd2p
                exact hpp hd2p.symm
              exact ⟨d2, by rw [lookupA_eraseA_ne _ hwne]; exact hd2, hd2a, hd2p⟩
        | true =>
          rw [on_close_room_empty hat hroom hemp]
          have hlook2 : lookupA d.project_id (setA d.project_id (room.remove_peer ws).1 st.mgr.rooms) = some ((room.remove_peer ws).1) := by
            rw [lookupA_setA_self, hroom]
            rfl
          have hemp2 : (room.remove_peer ws).1.peers.isEmpty = true := by
            rw [remove_peer_snd] at hemp
            rw [remove_peer_peers]
            exact hemp
          rw [remove_if_empty_erase hlook2 hemp2]
          refine ⟨nodup_keysA_eraseA ws hc, ?_, ?_⟩
          · exact nodup_keysA_eraseA _ (by rw [keysA_setA]; exact hr)
          · intro pid0 r0 hp0
            have hppne : pid0 ≠ d.project_id := by
              rintro rfl
              rw [lookupA_eraseA_self] at hp0
              exact Option.noConfusion hp0
            rw [lookupA_eraseA_ne _ hppne, lookupA_setA_ne _ _ hppne] at hp0
            obtain ⟨hnd0, hpo0⟩ := hrooms pid0 r0 hp0
            refine ⟨hnd0, ?_⟩
            intro w hw
            obtain ⟨d2, hd2, hd2a, hd2p⟩ := hpo0 w hw
            have hwne : w ≠ ws := by
              rintro rfl
              rw [hl] at hd2
              rw [← Option.some.inj hd2] at hd2p
              exact hppne hd2p.symm
            exact ⟨d2, by rw [lookupA_eraseA_ne _ hwne]; exact hd2, hd2a, hd2p⟩

theorem reachable_inv {max : Nat} {st : ServerState} (h : Reachable max st) :
    Inv st := by
  induction h with
  | init =>
    refine ⟨List.nodup_nil, List.nodup_nil, ?_⟩
    intro pid r hcontra
    simp [RoomManager.empty] at hcontra
  | step e _ ih =>
    cases e with
    | openC ws => exact inv_preserved_open ws ih
    | textMsg ws msg auth access loaded => exact inv_preserved_text ws msg auth access loaded ih
    | binMsg ws frame => exact inv_preserved_bin ws frame ih
    | closeC ws => exact inv_preserved_close ws ih

theorem inv_at_most_one {st : ServerState} (hInv : Inv st) {ws : Handle}
    {pid1 pid2 : String} {r1 r2 : Room}
    (h1 : lookupA pid1 st.mgr.rooms = some r1)
    (h2 : lookupA pid2 st.mgr.rooms = some r2)
    (hm1 : ws ∈ keysA r1.peers) (hm2 : ws ∈ keysA r2.peers) : pid1 = pid2 := by
  obtain ⟨_, _, hrooms⟩ := hInv
  obtain ⟨_, po1⟩ := hrooms pid1 r1 h1
  obtain ⟨_, po2⟩ := hrooms pid2 r2 h2
  obtain ⟨d1, hd1, _, hp1⟩ := po1 ws hm1
  obtain ⟨d2, hd2, _, hp2⟩ := po2 ws hm2
  rw [hd1] at hd2
  rw [← hp1, ← hp2, Option.some.inj hd2]

theorem closeC_conn_removed (st : ServerState) (ws : Handle) :
    lookupA ws ((stepServer st (.closeC ws)).1).conns = none := by
  cases hl : lookupA ws st.conns with
  | none =>
    have hstep : (stepServer st (.closeC ws)).1 = st := by rw [stepServer, hl]
    rw [hstep]
    exact hl
  | some d =>
    have hstep : (stepServer st (.closeC ws)).1 =
        { (on_close st ws d).1 with conns := eraseA ws (on_close st ws d).1.conns } := by
      rw [stepServer, hl]
    rw [hstep]
    exact lookupA_eraseA_self ws _

/-- C9: in every reachable server state, a connection handle belongs to the
peer set of at most one session (two registry entries both holding the
handle coincide); a join control message arriving on an already
authenticated connection is ignored outright (so a connection completes at
most one successful join); and after the close event for a handle, no
session in the registry still holds that handle. -/
theorem C9_single_session (max : Nat) (st : ServerState)
    (hreach : Reachable max st) :
    (∀ (ws : Handle) (pid1 pid2 : String) (r1 r2 : Room),
      lookupA pid1 st.mgr.rooms = some r1 → lookupA pid2 st.mgr.rooms = some r2 →
      ws ∈ keysA r1.peers → ws ∈ keysA r2.peers → pid1 = pid2 ∧ r1 = r2) ∧
    (∀ (ws : Handle) (d : PerSocketData) (msg : CtrlMsg) (auth : Option String)
      (access : Bool) (loaded : Bytes),
      lookupA ws st.conns = some d → d.authenticated = true → msg.type = "join" →
      stepServer st (.textMsg ws msg auth access loaded) = (st, [])) ∧
    (∀ (ws : Handle) (pid : String) (r : Room),
      lookupA pid ((stepServer st (.closeC ws)).1).mgr.rooms = some r →
      ws ∉ keysA r.peers) := by
  have hInv := reachable_inv hreach
  refine ⟨?_, ?_, ?_⟩
  · intro ws pid1 pid2 r1 r2 h1 h2 hm1 hm2
    have hpid := inv_at_most_one hInv h1 h2 hm1 hm2
    subst hpid
    rw [h1] at h2
    exact ⟨rfl, Option.some.inj h2⟩
  · intro ws d msg auth access loaded hconn hauth hjoin
    have hstep : stepServer st (.textMsg ws msg auth access loaded) =
        on_text_message st ws d msg auth access loaded := by
      rw [stepServer, hconn]
    have hnp : ¬ (msg.type = "ping") := by
      rw [hjoin]
      decide
    have hnj : ¬ (msg.type = "join" ∧ d.authenticated = false) := by
      rintro ⟨_, hfa⟩
      rw [hauth] at hfa
      exact Bool.noConfusion hfa
    rw [hstep, on_text_message.eq_def]
    by_cases hv : msg.valid = false
    · rw [if_pos hv]
    · rw [if_neg hv, if_neg hnp, if_neg hnj]
  · intro ws pid r hlook hmem
    have hInv2 := inv_preserved_close ws hInv
    obtain ⟨_, _, hrooms2⟩ := hInv2
    obtain ⟨_, po⟩ := hrooms2 pid r hlook
    obtain ⟨d2, hd2, _, _⟩ := po ws hmem
    rw [closeC_conn_removed st ws] at hd2
    exact Option.noConfusion hd2

/-- A concrete run for the C9 witness: server with room capacity 2, handle 1
opens, then joins project p as user u1. -/
def c9sA : ServerState := { conns := [], mgr := RoomManager.empty 2 }

/-- State after handle 1 opens. -/
def c9sB : ServerState := (stepServer c9sA (.openC 1)).1

/-- State after handle 1 joins project p. -/
def c9sC : ServerState :=
  (stepServer c9sB
    (.textMsg 1 { type := "join", project_id := "p", token := "t", valid := true }
      (some "u1") true [])).1

/-- Witness for C9 at a concrete reachable state: a second join arriving on
the already-authenticated handle 1 is ignored. -/
theorem C9_single_session_witness :
    stepServer c9sC
      (.textMsg 1 { type := "join", project_id := "p", token := "t2", valid := true }
        (some "u2") true []) = (c9sC, []) := by
  have hreach : Reachable 2 c9sC :=
    Reachable.step _ (Reachable.step _ Reachable.init)
  exact (C9_single_session 2 c9sC hreach).2.1 1
    { user_id := "u1", project_id := "p", authenticated := true }
    { type := "join", project_id := "p", token := "t2", valid := true }
    (some "u2") true [] (by decide) rfl rfl

end Wigma
